import Mathlib

/-!
# Verification of the dbd-winstreak-ui core (`src/main.rs`)

A shallow embedding of the data-reconciliation and streak-recording core of
the tracker.  Rust `i32` values are modelled as `Int` together with the
explicit two's-complement wrap `wrap32` at the one place the code performs
arithmetic (`cat.current += 1`, release-profile wrapping semantics).
Fallible operations (the `list[char_idx]` index, which panics when out of
range) are modelled with `Option`, `none` being the panic path.  Rust's
Unicode `char::is_uppercase` / `is_lowercase` are modelled by their ASCII
restrictions `Char.isUpper` / `Char.isLower`.
-/

namespace Streaks

/-- Two's-complement wrap-around of an unbounded integer into the `i32`
range `[-2^31, 2^31)`; models Rust release-profile overflow semantics. -/
def wrap32 (x : Int) : Int := (x + 2 ^ 31) % 2 ^ 32 - 2 ^ 31

/-- `struct StreakCategory { name, current, best }` from `main.rs`. -/
structure StreakCategory where
  name : String
  current : Int
  best : Int
deriving DecidableEq, Repr

/-- `struct Character { name, image_path, streaks }` from `main.rs`. -/
structure Character where
  name : String
  image_path : String
  streaks : List StreakCategory
deriving DecidableEq, Repr

/-- Rust `u8::to_ascii_lowercase`, lifted to `Char`: shifts `'A'..'Z'` down
by 32, leaves every other character unchanged. -/
def asciiLowerChar (c : Char) : Char :=
  if 'A' ≤ c ∧ c ≤ 'Z' then Char.ofNat (c.toNat + 32) else c

/-- Rust `str::eq_ignore_ascii_case`: byte-wise equality after ASCII
lowercasing (character-wise is equivalent on UTF-8). -/
def eqIgnoreAsciiCase (a b : String) : Bool :=
  a.data.map asciiLowerChar == b.data.map asciiLowerChar

/-- `stem.replace('_', " ")` from `format_name`, on the character list. -/
def replaceUnderscores (l : List Char) : List Char :=
  l.map fun c => if c = '_' then ' ' else c

/-- `acc.chars().last().is_some_and(|p| p.is_lowercase())` from `format_name`. -/
def prevIsLower (acc : List Char) : Bool :=
  match acc.getLast? with
  | some p => p.isLower
  | none => false

/-- `fn format_name(stem)` from `main.rs`: replace underscores by spaces,
then fold over the characters pushing a space before an uppercase character
whose accumulated predecessor is lowercase. -/
def format_name (stem : String) : String :=
  ⟨(replaceUnderscores stem.data).foldl
      (fun acc c => if c.isUpper && prevIsLower acc then acc ++ [' ', c] else acc ++ [c]) []⟩

/-- The spec's wording of name derivation: insert a space before every
uppercase letter that immediately follows a lowercase letter (pairwise on
adjacent characters).  Companion definition for the refinement claim. -/
def insertCamelSpaces : List Char → List Char
  | [] => []
  | [a] => [a]
  | a :: b :: rest =>
    if a.isLower && b.isUpper then a :: ' ' :: insertCamelSpaces (b :: rest)
    else a :: insertCamelSpaces (b :: rest)

/-- Spec-worded name derivation: replace underscores, then split
camel-case boundaries.  Companion definition for the refinement claim. -/
def specDerivedName (stem : String) : String :=
  ⟨insertCamelSpaces (replaceUnderscores stem.data)⟩

/-- The win branch of `record`: `cat.current += 1; cat.best = cat.best.max(cat.current)`
(with `i32` wrapping on the increment). -/
def winUpdate (cat : StreakCategory) : StreakCategory :=
  { cat with current := wrap32 (cat.current + 1), best := max cat.best (wrap32 (cat.current + 1)) }

/-- The loss branch of `record`: `cat.current = 0`. -/
def lossUpdate (cat : StreakCategory) : StreakCategory :=
  { cat with current := 0 }

/-- `character.streaks.get_mut(s_idx)` followed by the win/loss branch:
updates the category at index `i` when it exists, otherwise no mutation. -/
def applyOutcome : List StreakCategory → Nat → Bool → List StreakCategory
  | [], _, _ => []
  | c :: rest, 0, isWin => (if isWin then winUpdate c else lossUpdate c) :: rest
  | c :: rest, i + 1, isWin => c :: applyOutcome rest i isWin

/-- `streaks.iter_mut().find(|s| s.name == "3k")` followed by
`three_k_streak.best = three_k_streak.best.max(best_4k)`: raises the `best`
of the first category named `"3k"` to at least `b4`. -/
def updateFirst3k (b4 : Int) : List StreakCategory → List StreakCategory
  | [] => []
  | c :: rest =>
    if c.name = "3k" then { c with best := max c.best b4 } :: rest
    else c :: updateFirst3k b4 rest

/-- The cross-category propagation block of `record`: if a category named
`"4k"` exists, its `best` is propagated as a floor to the first category
named `"3k"`. -/
def propagate4kTo3k (streaks : List StreakCategory) : List StreakCategory :=
  match streaks.find? (fun s => s.name == "4k") with
  | some s4 => updateFirst3k s4.best streaks
  | none => streaks

/-- The `record` closure of `main.rs` as a pure function on the collection
and the two selection indices.  `none` models the Rust panic of
`&mut list[char_idx]` when `char_idx` is out of range; otherwise the result
is the updated collection together with the returned `(current, best)`
pair read back from the selected index (`(0, 0)` when the category index is
out of range, matching the final `if let` fallback). -/
def record (chars : List Character) (charIdx sIdx : Nat) (isWin : Bool) :
    Option (List Character × Int × Int) :=
  match chars[charIdx]? with
  | none => none
  | some ch =>
    let s1 := applyOutcome ch.streaks sIdx isWin
    let s2 := if isWin && !eqIgnoreAsciiCase ch.name "survivor" then propagate4kTo3k s1 else s1
    let ret := match s2[sIdx]? with
      | some cat => (cat.current, cat.best)
      | none => ((0 : Int), (0 : Int))
    some (chars.set charIdx { ch with streaks := s2 }, ret)

/-- The trace of states of one streak category under a sequence of recorded
outcomes (`true` = win, `false` = loss): the state immediately after each call. -/
def runOutcomes (cat : StreakCategory) : List Bool → List StreakCategory
  | [] => []
  | w :: rest =>
    (if w then winUpdate cat else lossUpdate cat) ::
      runOutcomes (if w then winUpdate cat else lossUpdate cat) rest

/-- A zero-initialised streak category, `StreakCategory { name, current: 0, best: 0 }`. -/
def mkCategory (n : String) : StreakCategory := ⟨n, 0, 0⟩

/-- The category list chosen for an entity:
`if name.eq_ignore_ascii_case("survivor") { &survivor_cats } else { &killer_cats }`. -/
def catsFor (killerCats survivorCats : List String) (name : String) : List String :=
  if eqIgnoreAsciiCase name "survivor" then survivorCats else killerCats

/-- The `Character` pushed by the discovery loop of `load_data`: the derived
name, the file path, and one zeroed category per configured name. -/
def mkCharacter (killerCats survivorCats : List String) (name path : String) : Character :=
  ⟨name, path, (catsFor killerCats survivorCats name).map mkCategory⟩

/-- The discovery loop of `load_data`: each discovered `(name, path)` whose
name is not already present (case-sensitively) is appended as a fresh
entity; the `Bool` is the `data_changed` flag contribution. -/
def addDiscovered (k s : List String) :
    List Character → List (String × String) → List Character × Bool
  | chars, [] => (chars, false)
  | chars, (name, path) :: rest =>
    if chars.any (fun c => c.name == name) then addDiscovered k s chars rest
    else ((addDiscovered k s (chars ++ [mkCharacter k s name path]) rest).1, true)

/-- `fn ensure_categories(character, categories)` from `main.rs`: appends a
zeroed category for every configured name not yet present; returns whether
any append occurred. -/
def ensure_categories (ch : Character) : List String → Character × Bool
  | [] => (ch, false)
  | n :: rest =>
    if ch.streaks.any (fun c => c.name == n) then ensure_categories ch rest
    else ((ensure_categories { ch with streaks := ch.streaks ++ [mkCategory n] } rest).1, true)

/-- The `for character in &mut characters` loop of `load_data` applying
`ensure_categories` with each entity's group list. -/
def ensureAll (k s : List String) : List Character → List Character × Bool
  | [] => ([], false)
  | ch :: rest =>
    ((ensure_categories ch (catsFor k s ch.name)).1 :: (ensureAll k s rest).1,
     (ensure_categories ch (catsFor k s ch.name)).2 || (ensureAll k s rest).2)

/-- `|a, b| a.name.cmp(&b.name)` as a Boolean order: byte-wise (equivalently
code-point-wise) comparison of the names. -/
def nameLe (a b : Character) : Bool := a.name ≤ b.name

/-- `characters.sort_by(|a, b| a.name.cmp(&b.name))`: a stable sort by name. -/
def sortByName (cs : List Character) : List Character := cs.mergeSort nameLe

/-- `fn load_data()` as a pure function of the persisted collection, the
discovered `(derivedName, path)` pairs, and the two configured category
lists: discovery merge, then category reconciliation, then the sort; the
`Bool` is the `data_changed` flag. -/
def load_data (persisted : List Character) (discovered : List (String × String))
    (killerCats survivorCats : List String) : List Character × Bool :=
  (sortByName (ensureAll killerCats survivorCats
      (addDiscovered killerCats survivorCats persisted discovered).1).1,
   (addDiscovered killerCats survivorCats persisted discovered).2
     || (ensureAll killerCats survivorCats
          (addDiscovered killerCats survivorCats persisted discovered).1).2)

/-- The collection handed to `save_data` during `load_data`: written only
when `data_changed`, and written *before* the sort (the code calls
`save_data` and only afterwards `characters.sort_by`). -/
def savedOnLoad (persisted : List Character) (discovered : List (String × String))
    (killerCats survivorCats : List String) : Option (List Character) :=
  let r1 := addDiscovered killerCats survivorCats persisted discovered
  let r2 := ensureAll killerCats survivorCats r1.1
  if r1.2 || r2.2 then some r2.1 else none

/-! ## Name derivation: bridging the fold of `format_name` with the
pairwise description of the spec. -/

/-- Whether an optional preceding character is a lowercase letter. -/
def optIsLower : Option Char → Bool
  | some p => p.isLower
  | none => false

/-- The remainder of the `format_name` fold, tracking the previously pushed
character. -/
def insertAux (prev : Option Char) : List Char → List Char
  | [] => []
  | c :: rest =>
    (if c.isUpper && optIsLower prev then [' ', c] else [c]) ++ insertAux (some c) rest

theorem prevIsLower_eq (acc : List Char) : prevIsLower acc = optIsLower acc.getLast? := by
  unfold prevIsLower optIsLower
  cases acc.getLast? <;> rfl

theorem foldl_format_eq_insertAux (l : List Char) (acc : List Char) :
    l.foldl (fun acc c => if c.isUpper && prevIsLower acc then acc ++ [' ', c] else acc ++ [c]) acc
      = acc ++ insertAux acc.getLast? l := by
  induction l generalizing acc with
  | nil => simp [insertAux]
  | cons c rest ih =>
    rw [List.foldl_cons, ih]
    show _ = acc ++ ((if c.isUpper && optIsLower acc.getLast? then [' ', c] else [c])
        ++ insertAux (some c) rest)
    rw [← prevIsLower_eq]
    by_cases h : (c.isUpper && prevIsLower acc) = true
    · rw [if_pos h, if_pos h]
      have hl : (acc ++ [' ', c]).getLast? = some c := by
        simp [List.getLast?_append]
      rw [hl, ← List.append_assoc]
    · rw [if_neg h, if_neg h]
      have hl : (acc ++ [c]).getLast? = some c := List.getLast?_concat acc
      rw [hl, ← List.append_assoc]

theorem insertAux_some_eq (a : Char) (l : List Char) :
    a :: insertAux (some a) l = insertCamelSpaces (a :: l) := by
  induction l generalizing a with
  | nil => rfl
  | cons b rest ih =>
    show a :: ((if b.isUpper && a.isLower then [' ', b] else [b]) ++ insertAux (some b) rest)
      = if a.isLower && b.isUpper then a :: ' ' :: insertCamelSpaces (b :: rest)
        else a :: insertCamelSpaces (b :: rest)
    rw [Bool.and_comm, ← ih b]
    by_cases h : (a.isLower && b.isUpper) = true
    · rw [if_pos h, if_pos h]; rfl
    · rw [if_neg h, if_neg h]; rfl

theorem insertAux_none_eq (l : List Char) : insertAux none l = insertCamelSpaces l := by
  cases l with
  | nil => rfl
  | cons c rest =>
    show (if c.isUpper && false then [' ', c] else [c]) ++ insertAux (some c) rest
      = insertCamelSpaces (c :: rest)
    rw [Bool.and_false, if_neg (by simp)]
    exact insertAux_some_eq c rest

theorem format_name_eq_specDerivedName (s : String) :
    format_name s = specDerivedName s := by
  unfold format_name specDerivedName
  rw [foldl_format_eq_insertAux]
  show String.mk ([] ++ insertAux none (replaceUnderscores s.data)) = _
  rw [List.nil_append, insertAux_none_eq]

/-- No lowercase-then-uppercase adjacency anywhere in the character list. -/
def noLU : List Char → Bool
  | a :: b :: rest => !(a.isLower && b.isUpper) && noLU (b :: rest)
  | _ => true

theorem insertCamelSpaces_cons (b : Char) (rest : List Char) :
    ∃ t, insertCamelSpaces (b :: rest) = b :: t := by
  cases rest with
  | nil => exact ⟨[], rfl⟩
  | cons c rest' =>
    unfold insertCamelSpaces
    by_cases h : (b.isLower && c.isUpper) = true
    · rw [if_pos h]; exact ⟨_, rfl⟩
    · rw [if_neg h]; exact ⟨_, rfl⟩

theorem noLU_insertCamelSpaces : ∀ l : List Char, noLU (insertCamelSpaces l) = true
  | [] => rfl
  | [a] => rfl
  | a :: b :: rest => by
    have ih := noLU_insertCamelSpaces (b :: rest)
    obtain ⟨t, ht⟩ := insertCamelSpaces_cons b rest
    rw [ht] at ih
    unfold insertCamelSpaces
    cases hab : (a.isLower && b.isUpper) with
    | true =>
      rw [if_pos rfl, ht]
      show (!(a.isLower && Char.isUpper ' ')
          && (!(Char.isLower ' ' && b.isUpper) && noLU (b :: t))) = true
      rw [show Char.isUpper ' ' = false from rfl, show Char.isLower ' ' = false from rfl,
        Bool.and_false, Bool.false_and, Bool.not_false, Bool.true_and, Bool.true_and, ih]
    | false =>
      rw [if_neg Bool.false_ne_true, ht]
      show (!(a.isLower && b.isUpper) && noLU (b :: t)) = true
      rw [hab, Bool.not_false, Bool.true_and, ih]

theorem insertCamelSpaces_of_noLU : ∀ l : List Char, noLU l = true → insertCamelSpaces l = l
  | [], _ => rfl
  | [_], _ => rfl
  | a :: b :: rest, h => by
    have h' := (Bool.and_eq_true _ _).mp h
    have h1 : (a.isLower && b.isUpper) = false := by
      rcases h' with ⟨h1, _⟩
      cases hab : (a.isLower && b.isUpper)
      · rfl
      · rw [hab] at h1; exact absurd h1 (by decide)
    unfold insertCamelSpaces
    rw [if_neg (by rw [h1]; exact Bool.false_ne_true),
      insertCamelSpaces_of_noLU (b :: rest) h'.2]

theorem mem_insertCamelSpaces {c : Char} :
    ∀ l : List Char, c ∈ insertCamelSpaces l → c ∈ l ∨ c = ' '
  | [], h => by rw [show insertCamelSpaces [] = [] from rfl] at h; exact absurd h (by simp)
  | [a], h => by
    rw [show insertCamelSpaces [a] = [a] from rfl] at h
    exact Or.inl h
  | a :: b :: rest, h => by
    unfold insertCamelSpaces at h
    by_cases hc : (a.isLower && b.isUpper) = true
    · rw [if_pos hc] at h
      rcases List.mem_cons.mp h with h1 | h1
      · exact Or.inl (by rw [h1]; exact List.mem_cons_self a _)
      · rcases List.mem_cons.mp h1 with h2 | h2
        · exact Or.inr h2
        · rcases mem_insertCamelSpaces (b :: rest) h2 with h' | h'
          · exact Or.inl (List.mem_cons_of_mem a h')
          · exact Or.inr h'
    · rw [if_neg hc] at h
      rcases List.mem_cons.mp h with h1 | h1
      · exact Or.inl (by rw [h1]; exact List.mem_cons_self a _)
      · rcases mem_insertCamelSpaces (b :: rest) h1 with h' | h'
        · exact Or.inl (List.mem_cons_of_mem a h')
        · exact Or.inr h'

theorem replaceUnderscores_no_underscore (l : List Char) :
    ∀ c ∈ replaceUnderscores l, c ≠ '_' := by
  intro c hc
  unfold replaceUnderscores at hc
  obtain ⟨a, _, ha⟩ := List.mem_map.mp hc
  by_cases h : a = '_'
  · rw [h, if_pos rfl] at ha; rw [← ha]; decide
  · rw [if_neg h] at ha; rw [← ha]; exact h

theorem replaceUnderscores_of_no_underscore (l : List Char) (h : ∀ c ∈ l, c ≠ '_') :
    replaceUnderscores l = l := by
  unfold replaceUnderscores
  induction l with
  | nil => rfl
  | cons c rest ih =>
    rw [List.map_cons, if_neg (h c (List.mem_cons_self c rest)),
      ih fun x hx => h x (List.mem_cons_of_mem c hx)]

/-- **C9** (confirmed): the derived display name is obtained by replacing
every underscore with a space and then inserting a space before every
uppercase letter that immediately follows a lowercase letter
(`specDerivedName`, the spec's wording, refined by the code's
`format_name`); in particular `"Ghost_Face" ↦ "Ghost Face"`, `"Oni" ↦ "Oni"`,
`"PigMask" ↦ "Pig Mask"`, `"GhostFace" ↦ "Ghost Face"`. -/
theorem name_derivation_matches_spec :
    (∀ stem : String, format_name stem = specDerivedName stem) ∧
    format_name "Ghost_Face" = "Ghost Face" ∧ format_name "Oni" = "Oni" ∧
    format_name "PigMask" = "Pig Mask" ∧ format_name "GhostFace" = "Ghost Face" :=
  ⟨format_name_eq_specDerivedName, by decide, by decide, by decide, by decide⟩

/-- **C10** (confirmed): name derivation is idempotent: re-deriving a name
from an already-derived display name never changes it. -/
theorem format_name_idempotent (s : String) :
    format_name (format_name s) = format_name s := by
  rw [format_name_eq_specDerivedName s, format_name_eq_specDerivedName]
  show String.mk (insertCamelSpaces (replaceUnderscores
      (insertCamelSpaces (replaceUnderscores s.data)))) = _
  have hno : ∀ c ∈ insertCamelSpaces (replaceUnderscores s.data), c ≠ '_' := by
    intro c hc
    rcases mem_insertCamelSpaces _ hc with h' | h'
    · exact replaceUnderscores_no_underscore _ c h'
    · rw [h']; decide
  rw [replaceUnderscores_of_no_underscore _ hno,
    insertCamelSpaces_of_noLU _ (noLU_insertCamelSpaces _)]
  rfl

/-- **C4** (code bug): with an empty collection — reachable when
`streaks.json` is empty or missing and the media directory has no images —
the `record` closure evaluates `&mut list[char_idx]` with `char_idx = 0`,
an out-of-bounds index that panics and terminates the process; the
embedding's panic path (`none`) is taken instead of any safe default. -/
theorem record_empty_collection_panics : record ([] : List Character) 0 0 true = none := rfl

/-! ## Recording outcomes -/

theorem applyOutcome_length :
    ∀ (l : List StreakCategory) (i : Nat) (w : Bool), (applyOutcome l i w).length = l.length
  | [], _, _ => rfl
  | _ :: _, 0, _ => rfl
  | c :: rest, i + 1, w => by
    show (c :: applyOutcome rest i w).length = _
    simp [applyOutcome_length rest i w]

theorem applyOutcome_getElem_self :
    ∀ (l : List StreakCategory) (i : Nat) (cat : StreakCategory) (w : Bool),
      l[i]? = some cat →
      (applyOutcome l i w)[i]? = some (if w then winUpdate cat else lossUpdate cat)
  | [], i, cat, w, h => by simp at h
  | c :: rest, 0, cat, w, h => by
    rw [List.getElem?_cons_zero, Option.some_inj] at h
    subst h
    show ((if w then winUpdate c else lossUpdate c) :: rest)[0]? = _
    rw [List.getElem?_cons_zero]
  | c :: rest, i + 1, cat, w, h => by
    rw [List.getElem?_cons_succ] at h
    show (c :: applyOutcome rest i w)[i + 1]? = _
    rw [List.getElem?_cons_succ]
    exact applyOutcome_getElem_self rest i cat w h

theorem applyOutcome_getElem_other :
    ∀ (l : List StreakCategory) (i j : Nat) (w : Bool), j ≠ i →
      (applyOutcome l i w)[j]? = l[j]?
  | [], _, _, _, _ => rfl
  | c :: rest, 0, 0, w, h => absurd rfl h
  | c :: rest, 0, j + 1, w, _ => by
    show ((if w then winUpdate c else lossUpdate c) :: rest)[j + 1]? = _
    rw [List.getElem?_cons_succ, List.getElem?_cons_succ]
  | c :: rest, i + 1, 0, w, _ => by
    show (c :: applyOutcome rest i w)[0]? = (c :: rest)[0]?
    rw [List.getElem?_cons_zero, List.getElem?_cons_zero]
  | c :: rest, i + 1, j + 1, w, h => by
    show (c :: applyOutcome rest i w)[j + 1]? = _
    rw [List.getElem?_cons_succ, List.getElem?_cons_succ]
    exact applyOutcome_getElem_other rest i j w fun e => h (by rw [e])

theorem updateFirst3k_length (b4 : Int) :
    ∀ l : List StreakCategory, (updateFirst3k b4 l).length = l.length
  | [] => rfl
  | c :: rest => by
    unfold updateFirst3k
    by_cases h : c.name = "3k"
    · rw [if_pos h]; rfl
    · rw [if_neg h]
      show (c :: updateFirst3k b4 rest).length = _
      simp [updateFirst3k_length b4 rest]

theorem propagate4kTo3k_length (l : List StreakCategory) :
    (propagate4kTo3k l).length = l.length := by
  unfold propagate4kTo3k
  cases l.find? (fun s => s.name == "4k") with
  | none => rfl
  | some s4 => exact updateFirst3k_length s4.best l

/-- Unfolding of `record` once the selected entity exists. -/
theorem record_eq_of_getElem (chars : List Character) (charIdx sIdx : Nat) (w : Bool)
    (ch : Character) (hch : chars[charIdx]? = some ch) :
    record chars charIdx sIdx w =
      (let s2 := if w && !(eqIgnoreAsciiCase ch.name "survivor")
                 then propagate4kTo3k (applyOutcome ch.streaks sIdx w)
                 else applyOutcome ch.streaks sIdx w
       some (chars.set charIdx { ch with streaks := s2 },
         match s2[sIdx]? with
         | some cat => (cat.current, cat.best)
         | none => ((0 : Int), (0 : Int)))) := by
  unfold record
  rw [hch]

/-- **C1** (corrected for `i32` overflow): for every collection state with a
valid selected entity and category index, the outcome step of `record`
mutates exactly the selected `StreakCategory` — on a win `current` becomes
the wrapping `i32` increment `wrap32 (current + 1)` and `best` becomes
`max best (wrap32 (current + 1))`; on a loss `current` becomes `0` and
`best` is untouched — and the call returns the selected category's
`(current, best)` as they stand after all mutation of the call (including
any cross-category propagation); on a loss no propagation runs and the call
returns `(0, best)`. -/
theorem record_selected_outcome (chars : List Character) (charIdx sIdx : Nat)
    (ch : Character) (cat : StreakCategory)
    (hch : chars[charIdx]? = some ch) (hcat : ch.streaks[sIdx]? = some cat) :
    (∀ w, (applyOutcome ch.streaks sIdx w)[sIdx]? =
        some (if w then ⟨cat.name, wrap32 (cat.current + 1), max cat.best (wrap32 (cat.current + 1))⟩
              else ⟨cat.name, 0, cat.best⟩)) ∧
    (∀ w j, j ≠ sIdx → (applyOutcome ch.streaks sIdx w)[j]? = ch.streaks[j]?) ∧
    (∀ w, ∃ chars' cur best, record chars charIdx sIdx w = some (chars', (cur, best)) ∧
      ∃ ch' cat', chars'[charIdx]? = some ch' ∧ ch'.streaks[sIdx]? = some cat' ∧
        cur = cat'.current ∧ best = cat'.best) ∧
    record chars charIdx sIdx false =
      some (chars.set charIdx { ch with streaks := applyOutcome ch.streaks sIdx false },
        (0, cat.best)) := by
  have hlenc : charIdx < chars.length := (List.getElem?_eq_some_iff.mp hch).1
  have hlens : sIdx < ch.streaks.length := (List.getElem?_eq_some_iff.mp hcat).1
  refine ⟨fun w => applyOutcome_getElem_self ch.streaks sIdx cat w hcat,
    fun w j hj => applyOutcome_getElem_other ch.streaks sIdx j w hj, ?_, ?_⟩
  · intro w
    rw [record_eq_of_getElem chars charIdx sIdx w ch hch]
    set s2 := if w && !(eqIgnoreAsciiCase ch.name "survivor")
      then propagate4kTo3k (applyOutcome ch.streaks sIdx w)
      else applyOutcome ch.streaks sIdx w with hs2
    have hlen2 : sIdx < s2.length := by
      rw [hs2]
      by_cases hb : (w && !(eqIgnoreAsciiCase ch.name "survivor")) = true
      · rw [if_pos hb, propagate4kTo3k_length, applyOutcome_length]; exact hlens
      · rw [if_neg hb, applyOutcome_length]; exact hlens
    obtain ⟨cat', hcat'⟩ : ∃ cat', s2[sIdx]? = some cat' :=
      ⟨s2[sIdx], List.getElem?_eq_getElem hlen2⟩
    refine ⟨chars.set charIdx { ch with streaks := s2 }, cat'.current, cat'.best, ?_,
      { ch with streaks := s2 }, cat', List.getElem?_set_self hlenc, hcat', rfl, rfl⟩
    simp only [hcat']
  · rw [record_eq_of_getElem chars charIdx sIdx false ch hch]
    have hb : (false && !(eqIgnoreAsciiCase ch.name "survivor")) = false := rfl
    rw [hb, if_neg Bool.false_ne_true]
    simp only [applyOutcome_getElem_self ch.streaks sIdx cat false hcat]
    rfl

/-- Witness for C1 at a concrete valid selection: a loss on
`current = 2, best = 2` yields the collection with `current = 0, best = 2`
and returns `(0, 2)`. -/
theorem record_selected_outcome_witness :
    record [⟨"A", "p", [⟨"3k", 2, 2⟩]⟩] 0 0 false =
      some ([⟨"A", "p", [⟨"3k", 0, 2⟩]⟩], (0, 2)) := by
  have h := (record_selected_outcome [⟨"A", "p", [⟨"3k", 2, 2⟩]⟩] 0 0
    ⟨"A", "p", [⟨"3k", 2, 2⟩]⟩ ⟨"3k", 2, 2⟩ rfl rfl).2.2.2
  exact h

/-- Counterexample to **C1** as stated: at `current = 2^31 - 1 = 2147483647`
(a value the persistence codec can load), a recorded win wraps `current` to
`-2147483648` instead of setting it to `current + 1 = 2147483648`. -/
theorem record_overflow_counterexample :
    record [⟨"A", "p", [⟨"4k", 2147483647, 0⟩]⟩] 0 0 true =
      some ([⟨"A", "p", [⟨"4k", -2147483648, 0⟩]⟩], (-2147483648, 0)) ∧
    (-2147483648 : Int) ≠ 2147483647 + 1 :=
  ⟨rfl, by decide⟩

/-- **C2** (corrected): for every starting state of one streak category and
every sequence of recorded outcomes, `best` is non-decreasing across the
sequence; and when the starting `best` is non-negative, `best ≥ current`
(and `best ≥ 0`) holds immediately after every call. -/
theorem best_monotone_and_invariant (cat : StreakCategory) (ws : List Bool) :
    List.Chain (fun a b => a.best ≤ b.best) cat (runOutcomes cat ws) ∧
    (0 ≤ cat.best → ∀ st ∈ runOutcomes cat ws, st.current ≤ st.best ∧ 0 ≤ st.best) := by
  induction ws generalizing cat with
  | nil => exact ⟨List.Chain.nil, fun _ _ h => absurd h (List.not_mem_nil _)⟩
  | cons w rest ih =>
    have hstep : cat.best ≤ (if w then winUpdate cat else lossUpdate cat).best := by
      cases w
      · exact le_refl _
      · exact le_max_left _ _
    constructor
    · exact List.Chain.cons hstep (ih _).1
    · intro h0 st hst
      have hinv : (if w then winUpdate cat else lossUpdate cat).current ≤
          (if w then winUpdate cat else lossUpdate cat).best ∧
          0 ≤ (if w then winUpdate cat else lossUpdate cat).best := by
        cases w
        · exact ⟨h0, h0⟩
        · exact ⟨le_max_right _ _, le_trans h0 (le_max_left _ _)⟩
      rcases List.mem_cons.mp hst with h | h
      · rw [h]; exact hinv
      · exact (ih _).2 hinv.2 st h

/-- Witness for C2 at a concrete category and outcome sequence. -/
theorem best_monotone_and_invariant_witness :
    (0 : Int) ≤ 0 ∧
      ∀ st ∈ runOutcomes ⟨"4k", 0, 0⟩ [true, true, false], st.current ≤ st.best ∧ 0 ≤ st.best :=
  ⟨le_refl 0, (best_monotone_and_invariant ⟨"4k", 0, 0⟩ [true, true, false]).2 (le_refl 0)⟩

/-- Counterexample to **C2** as stated: the codec does not enforce
`best ≥ current` (nor `best ≥ 0`) on load; starting from the loadable state
`current = 5, best = -1`, a recorded loss leaves `current = 0, best = -1`,
so `best ≥ current` fails immediately after that call. -/
theorem invariant_fails_on_negative_best :
    ¬ ∀ st ∈ runOutcomes ⟨"4k", 5, -1⟩ [false], st.current ≤ st.best := by decide

theorem updateFirst3k_of_findIdx (b : Int) :
    ∀ (l : List StreakCategory) (j : Nat) (cj : StreakCategory),
      l.findIdx? (fun s => s.name == "3k") = some j → l[j]? = some cj →
      updateFirst3k b l = l.set j ⟨cj.name, cj.current, max cj.best b⟩
  | [], j, cj, hj, _ => by simp at hj
  | c :: rest, j, cj, hj, hcj => by
    rw [List.findIdx?_cons] at hj
    by_cases hc : (c.name == "3k") = true
    · rw [if_pos hc, Option.some_inj] at hj
      subst hj
      rw [List.getElem?_cons_zero, Option.some_inj] at hcj
      subst hcj
      unfold updateFirst3k
      rw [if_pos (beq_iff_eq.mp hc), List.set_cons_zero]
    · rw [if_neg hc, List.findIdx?_succ] at hj
      obtain ⟨j', hj', rfl⟩ := Option.map_eq_some'.mp hj
      rw [List.getElem?_cons_succ] at hcj
      unfold updateFirst3k
      rw [if_neg (fun e => hc (beq_iff_eq.mpr e)),
        updateFirst3k_of_findIdx b rest j' cj hj' hcj, List.set_cons_succ]

/-- **C3** (confirmed): a win recorded for an entity whose name is not
case-insensitively `"survivor"`, when the post-outcome streak list holds
categories named exactly `"4k"` and `"3k"`, sets the first `"3k"` entry's
`best` to `max(3k.best, 4k.best)` (regardless of which category is
selected), leaving its other fields and all other entries as the outcome
step left them; the propagation never runs on a loss and never runs for an
entity named case-insensitively `"survivor"`. -/
theorem record_4k_to_3k_propagation :
    (∀ (chars : List Character) (charIdx sIdx : Nat) (ch : Character)
        (j : Nat) (cj c4 : StreakCategory),
      chars[charIdx]? = some ch →
      eqIgnoreAsciiCase ch.name "survivor" = false →
      (applyOutcome ch.streaks sIdx true).find? (fun s => s.name == "4k") = some c4 →
      (applyOutcome ch.streaks sIdx true).findIdx? (fun s => s.name == "3k") = some j →
      (applyOutcome ch.streaks sIdx true)[j]? = some cj →
      ∃ ret, record chars charIdx sIdx true =
        some (chars.set charIdx { ch with streaks :=
          (applyOutcome ch.streaks sIdx true).set j ⟨cj.name, cj.current, max cj.best c4.best⟩ },
          ret)) ∧
    (∀ (chars : List Character) (charIdx sIdx : Nat) (ch : Character),
      chars[charIdx]? = some ch →
      ∃ ret, record chars charIdx sIdx false =
        some (chars.set charIdx { ch with streaks := applyOutcome ch.streaks sIdx false }, ret)) ∧
    (∀ (chars : List Character) (charIdx sIdx : Nat) (ch : Character),
      chars[charIdx]? = some ch →
      eqIgnoreAsciiCase ch.name "survivor" = true →
      ∃ ret, record chars charIdx sIdx true =
        some (chars.set charIdx { ch with streaks := applyOutcome ch.streaks sIdx true }, ret)) := by
  refine ⟨?_, ?_, ?_⟩
  · intro chars charIdx sIdx ch j cj c4 hch hname h4 hj hcj
    have hrec := record_eq_of_getElem chars charIdx sIdx true ch hch
    have hs2 : (if true && !(eqIgnoreAsciiCase ch.name "survivor")
        then propagate4kTo3k (applyOutcome ch.streaks sIdx true)
        else applyOutcome ch.streaks sIdx true)
        = (applyOutcome ch.streaks sIdx true).set j ⟨cj.name, cj.current, max cj.best c4.best⟩ := by
      rw [hname]
      show propagate4kTo3k (applyOutcome ch.streaks sIdx true) = _
      unfold propagate4kTo3k
      rw [h4]
      exact updateFirst3k_of_findIdx c4.best (applyOutcome ch.streaks sIdx true) j cj hj hcj
    rw [hs2] at hrec
    exact ⟨_, hrec⟩
  · intro chars charIdx sIdx ch hch
    exact ⟨_, record_eq_of_getElem chars charIdx sIdx false ch hch⟩
  · intro chars charIdx sIdx ch hch hname
    have hrec := record_eq_of_getElem chars charIdx sIdx true ch hch
    rw [hname] at hrec
    exact ⟨_, hrec⟩

/-- Witness for C3 at a concrete killer entity holding `"4k"` and `"3k"`
categories: a win on the `"4k"` category (current 0, best 5) raises the
`"3k"` best from 1 to 5. -/
theorem record_4k_to_3k_propagation_witness :
    ∃ ret, record [⟨"A", "p", [⟨"4k", 0, 5⟩, ⟨"3k", 0, 1⟩]⟩] 0 0 true =
      some ([⟨"A", "p", [⟨"4k", 1, 5⟩, ⟨"3k", 0, 5⟩]⟩], ret) := by
  have h := record_4k_to_3k_propagation.1 [⟨"A", "p", [⟨"4k", 0, 5⟩, ⟨"3k", 0, 1⟩]⟩] 0 0
    ⟨"A", "p", [⟨"4k", 0, 5⟩, ⟨"3k", 0, 1⟩]⟩ 1 ⟨"3k", 0, 1⟩ ⟨"4k", 1, 5⟩
    rfl rfl rfl rfl rfl
  exact h

/-! ## Reconciliation lemmas -/

theorem any_congr_mem {α : Type} {l l' : List α} (h : ∀ c, c ∈ l ↔ c ∈ l')
    (pr : α → Bool) : l.any pr = l'.any pr := by
  rw [Bool.eq_iff_iff, List.any_eq_true, List.any_eq_true]
  constructor
  · rintro ⟨x, hx, hp⟩; exact ⟨x, (h x).mp hx, hp⟩
  · rintro ⟨x, hx, hp⟩; exact ⟨x, (h x).mpr hx, hp⟩

theorem ensure_name : ∀ (cats : List String) (ch : Character),
    ((ensure_categories ch cats).1).name = ch.name
  | [], ch => rfl
  | n :: rest, ch => by
    unfold ensure_categories
    by_cases hc : ch.streaks.any (fun c => c.name == n) = true
    · rw [if_pos hc]; exact ensure_name rest ch
    · rw [if_neg hc]; exact ensure_name rest { ch with streaks := ch.streaks ++ [mkCategory n] }

theorem ensure_extends : ∀ (cats : List String) (ch : Character),
    ∃ t, ((ensure_categories ch cats).1).streaks = ch.streaks ++ t
  | [], ch => ⟨[], (List.append_nil _).symm⟩
  | n :: rest, ch => by
    unfold ensure_categories
    by_cases hc : ch.streaks.any (fun c => c.name == n) = true
    · rw [if_pos hc]; exact ensure_extends rest ch
    · rw [if_neg hc]
      obtain ⟨t, ht⟩ := ensure_extends rest { ch with streaks := ch.streaks ++ [mkCategory n] }
      exact ⟨mkCategory n :: t, by rw [ht, List.append_assoc]; rfl⟩

theorem ensure_complete : ∀ (cats : List String) (ch : Character) (n : String), n ∈ cats →
    ((ensure_categories ch cats).1).streaks.any (fun c => c.name == n) = true
  | [], _, n, hn => absurd hn (List.not_mem_nil n)
  | n' :: rest, ch, n, hn => by
    unfold ensure_categories
    by_cases hc : ch.streaks.any (fun c => c.name == n') = true
    · rw [if_pos hc]
      rcases List.mem_cons.mp hn with rfl | hmem
      · obtain ⟨t, ht⟩ := ensure_extends rest ch
        rw [ht, List.any_append, hc, Bool.true_or]
      · exact ensure_complete rest ch n hmem
    · rw [if_neg hc]
      rcases List.mem_cons.mp hn with rfl | hmem
      · obtain ⟨t, ht⟩ := ensure_extends rest { ch with streaks := ch.streaks ++ [mkCategory n] }
        show ((ensure_categories _ rest).1.streaks.any _) = true
        rw [ht]
        have h1 : (ch.streaks ++ [mkCategory n]).any (fun c => c.name == n) = true := by
          rw [List.any_append, List.any_cons,
            show ((mkCategory n).name == n) = true from beq_iff_eq.mpr rfl,
            Bool.true_or, Bool.or_true]
        rw [List.any_append, h1, Bool.true_or]
      · exact ensure_complete rest _ n hmem

theorem ensure_noop : ∀ (cats : List String) (ch : Character),
    (∀ n ∈ cats, ch.streaks.any (fun c => c.name == n) = true) →
    ensure_categories ch cats = (ch, false)
  | [], ch, _ => rfl
  | n :: rest, ch, h => by
    unfold ensure_categories
    rw [if_pos (h n (List.mem_cons_self n rest))]
    exact ensure_noop rest ch fun m hm => h m (List.mem_cons_of_mem n hm)

theorem ensure_nodup : ∀ (cats : List String) (ch : Character),
    (ch.streaks.map StreakCategory.name).Nodup →
    (((ensure_categories ch cats).1).streaks.map StreakCategory.name).Nodup
  | [], _, h => h
  | n :: rest, ch, h => by
    unfold ensure_categories
    by_cases hc : ch.streaks.any (fun c => c.name == n) = true
    · rw [if_pos hc]; exact ensure_nodup rest ch h
    · rw [if_neg hc]
      apply ensure_nodup rest
      show ((ch.streaks ++ [mkCategory n]).map StreakCategory.name).Nodup
      rw [List.map_append]
      refine List.nodup_append.mpr ⟨h, List.nodup_singleton _, ?_⟩
      intro a ha hb
      have ha' : a = n := by
        rcases List.mem_singleton.mp hb with rfl
        rfl
      subst ha'
      obtain ⟨c, hcmem, hcname⟩ := List.mem_map.mp ha
      have : ch.streaks.any (fun c => c.name == a) = true :=
        List.any_eq_true.mpr ⟨c, hcmem, beq_iff_eq.mpr hcname⟩
      exact hc this

theorem addDiscovered_extends (k s : List String) :
    ∀ (ds : List (String × String)) (chars : List Character),
      ∃ t, (addDiscovered k s chars ds).1 = chars ++ t
  | [], chars => ⟨[], (List.append_nil _).symm⟩
  | (n, p2) :: rest, chars => by
    unfold addDiscovered
    by_cases hc : chars.any (fun c => c.name == n) = true
    · rw [if_pos hc]; exact addDiscovered_extends k s rest chars
    · rw [if_neg hc]
      obtain ⟨t, ht⟩ := addDiscovered_extends k s rest (chars ++ [mkCharacter k s n p2])
      refine ⟨mkCharacter k s n p2 :: t, ?_⟩
      show (addDiscovered k s (chars ++ [mkCharacter k s n p2]) rest).1 = _
      rw [ht, List.append_assoc]
      rfl

theorem addDiscovered_complete (k s : List String) :
    ∀ (ds : List (String × String)) (chars : List Character) (d : String × String), d ∈ ds →
      (addDiscovered k s chars ds).1.any (fun c => c.name == d.1) = true
  | [], _, d, hd => absurd hd (List.not_mem_nil d)
  | (n, p2) :: rest, chars, d, hd => by
    unfold addDiscovered
    by_cases hc : chars.any (fun c => c.name == n) = true
    · rw [if_pos hc]
      rcases List.mem_cons.mp hd with rfl | hmem
      · obtain ⟨t, ht⟩ := addDiscovered_extends k s rest chars
        rw [ht, List.any_append, hc, Bool.true_or]
      · exact addDiscovered_complete k s rest chars d hmem
    · rw [if_neg hc]
      rcases List.mem_cons.mp hd with rfl | hmem
      · obtain ⟨t, ht⟩ := addDiscovered_extends k s rest (chars ++ [mkCharacter k s n p2])
        show ((addDiscovered k s _ rest).1.any _) = true
        rw [ht]
        have h1 : (chars ++ [mkCharacter k s n p2]).any (fun c => c.name == n) = true := by
          rw [List.any_append, List.any_cons,
            show ((mkCharacter k s n p2).name == n) = true from beq_iff_eq.mpr rfl,
            Bool.true_or, Bool.or_true]
        rw [List.any_append, h1, Bool.true_or]
      · exact addDiscovered_complete k s rest _ d hmem

theorem addDiscovered_noop (k s : List String) :
    ∀ (ds : List (String × String)) (chars : List Character),
      (∀ d ∈ ds, chars.any (fun c => c.name == d.1) = true) →
      addDiscovered k s chars ds = (chars, false)
  | [], chars, _ => rfl
  | (n, p2) :: rest, chars, h => by
    unfold addDiscovered
    rw [if_pos (h (n, p2) (List.mem_cons_self _ rest))]
    exact addDiscovered_noop k s rest chars fun d hd => h d (List.mem_cons_of_mem _ hd)

theorem addDiscovered_mem (k s : List String) :
    ∀ (ds : List (String × String)) (chars : List Character) (c : Character),
      c ∈ (addDiscovered k s chars ds).1 →
      c ∈ chars ∨ ∃ n p2, c = mkCharacter k s n p2
  | [], chars, c, hc => Or.inl hc
  | (n, p2) :: rest, chars, c, hc => by
    unfold addDiscovered at hc
    by_cases hany : chars.any (fun x => x.name == n) = true
    · rw [if_pos hany] at hc
      exact addDiscovered_mem k s rest chars c hc
    · rw [if_neg hany] at hc
      have hc' : c ∈ (addDiscovered k s (chars ++ [mkCharacter k s n p2]) rest).1 := hc
      rcases addDiscovered_mem k s rest _ c hc' with hin | hmk
      · rcases List.mem_append.mp hin with h1 | h1
        · exact Or.inl h1
        · exact Or.inr ⟨n, p2, (List.mem_singleton.mp h1)⟩
      · exact Or.inr hmk

theorem ensureAll_map_name (k s : List String) :
    ∀ l : List Character, ((ensureAll k s l).1).map Character.name = l.map Character.name
  | [] => rfl
  | ch :: rest => by
    show ((ensure_categories ch (catsFor k s ch.name)).1 :: (ensureAll k s rest).1).map _ = _
    rw [List.map_cons, List.map_cons, ensure_name, ensureAll_map_name k s rest]

theorem ensureAll_mem (k s : List String) :
    ∀ (l : List Character) (c' : Character), c' ∈ (ensureAll k s l).1 →
      ∃ c ∈ l, c' = (ensure_categories c (catsFor k s c.name)).1
  | [], c', hc => absurd hc (List.not_mem_nil c')
  | ch :: rest, c', hc => by
    have hc' : c' ∈ (ensure_categories ch (catsFor k s ch.name)).1 :: (ensureAll k s rest).1 := hc
    rcases List.mem_cons.mp hc' with h | h
    · exact ⟨ch, List.mem_cons_self ch rest, h⟩
    · obtain ⟨c, hcm, he⟩ := ensureAll_mem k s rest c' h
      exact ⟨c, List.mem_cons_of_mem ch hcm, he⟩

theorem ensureAll_noop (k s : List String) :
    ∀ l : List Character,
      (∀ c ∈ l, ∀ n ∈ catsFor k s c.name, c.streaks.any (fun x => x.name == n) = true) →
      ensureAll k s l = (l, false)
  | [], _ => rfl
  | ch :: rest, h => by
    show ((ensure_categories ch (catsFor k s ch.name)).1 :: (ensureAll k s rest).1,
      (ensure_categories ch (catsFor k s ch.name)).2 || (ensureAll k s rest).2) = _
    rw [ensure_noop (catsFor k s ch.name) ch (h ch (List.mem_cons_self ch rest)),
      ensureAll_noop k s rest fun c hc => h c (List.mem_cons_of_mem ch hc)]
    rfl

theorem nameLe_trans : ∀ a b c : Character, nameLe a b → nameLe b c → nameLe a c := by
  intro a b c hab hbc
  have h1 : a.name ≤ b.name := of_decide_eq_true hab
  have h2 : b.name ≤ c.name := of_decide_eq_true hbc
  exact decide_eq_true (le_trans h1 h2)

theorem nameLe_total : ∀ a b : Character, nameLe a b || nameLe b a := by
  intro a b
  rcases le_total a.name b.name with h | h
  · rw [show nameLe a b = true from decide_eq_true h, Bool.true_or]
  · rw [show nameLe b a = true from decide_eq_true h, Bool.or_true]

theorem mkCharacter_map_name (k s : List String) (n p2 : String) :
    ((mkCharacter k s n p2).streaks.map StreakCategory.name) = catsFor k s n := by
  show ((catsFor k s n).map mkCategory).map StreakCategory.name = _
  induction catsFor k s n with
  | nil => rfl
  | cons x rest ih => rw [List.map_cons, List.map_cons, ih]; rfl

/-- **C8** (confirmed): during reconciliation a discovered `(name, path)` is
merged with a persisted entity (no duplicate created) exactly when the names
are equal case-sensitively, while the survivor category-set choice for a new
entity compares the derived name against `"survivor"` ASCII
case-insensitively; the two comparison modes genuinely differ
(`"Survivor"` vs `"survivor"`). -/
theorem discovery_dedup_case_sensitivity :
    (∀ (k s : List String) (chars : List Character) (name path : String)
        (rest : List (String × String)),
      (∃ c ∈ chars, c.name = name) →
      addDiscovered k s chars ((name, path) :: rest) = addDiscovered k s chars rest) ∧
    (∀ (k s : List String) (chars : List Character) (name path : String)
        (rest : List (String × String)),
      (¬ ∃ c ∈ chars, c.name = name) →
      addDiscovered k s chars ((name, path) :: rest) =
        ((addDiscovered k s (chars ++ [⟨name, path,
            (if eqIgnoreAsciiCase name "survivor" then s else k).map mkCategory⟩]) rest).1,
          true)) ∧
    (eqIgnoreAsciiCase "Survivor" "survivor" = true ∧ "Survivor" ≠ "survivor") := by
  refine ⟨?_, ?_, by decide, by decide⟩
  · intro k s chars name path rest h
    obtain ⟨c, hc, he⟩ := h
    have hbeq : (c.name == name) = true := beq_iff_eq.mpr he
    have hcond : (chars.any fun c => c.name == name) = true :=
      List.any_eq_true.mpr ⟨c, hc, hbeq⟩
    show (if chars.any (fun c => c.name == name) then addDiscovered k s chars rest
          else ((addDiscovered k s (chars ++ [mkCharacter k s name path]) rest).1, true)) = _
    rw [if_pos hcond]
  · intro k s chars name path rest h
    have hcond : ¬ ((chars.any fun c => c.name == name) = true) := by
      intro hany
      obtain ⟨c, hc, he⟩ := List.any_eq_true.mp hany
      exact h ⟨c, hc, beq_iff_eq.mp he⟩
    show (if chars.any (fun c => c.name == name) then addDiscovered k s chars rest
          else ((addDiscovered k s (chars ++ [mkCharacter k s name path]) rest).1, true)) = _
    rw [if_neg hcond]
    rfl

/-- Witness for C8: a discovered file whose derived name exactly matches a
persisted entity produces no new entity and no change flag. -/
theorem discovery_dedup_witness :
    addDiscovered [] [] [⟨"Nurse", "p", []⟩] [("Nurse", "q")] = ([⟨"Nurse", "p", []⟩], false) := by
  have h := discovery_dedup_case_sensitivity.1 [] [] [⟨"Nurse", "p", []⟩] "Nurse" "q" []
    ⟨⟨"Nurse", "p", []⟩, List.mem_singleton.mpr rfl, rfl⟩
  rw [h]
  rfl

/-- **C6** (corrected): the collection returned by `load_data` is sorted
ascending by byte-wise name comparison, and a structural change triggers an
immediate persistence — but the code calls `save_data` *before*
`characters.sort_by`, so the persisted collection is the pre-sort final
collection: a permutation of the returned collection, not necessarily
sorted. -/
theorem load_sorted_save_presorted (p : List Character) (ds : List (String × String))
    (k s : List String) :
    List.Pairwise (fun a b => nameLe a b = true) (load_data p ds k s).1 ∧
    (savedOnLoad p ds k s = none ↔ (load_data p ds k s).2 = false) ∧
    (∀ l, savedOnLoad p ds k s = some l → l.Perm (load_data p ds k s).1) := by
  refine ⟨?_, ?_, ?_⟩
  · show List.Pairwise _ (List.mergeSort (ensureAll k s (addDiscovered k s p ds).1).1 nameLe)
    exact List.sorted_mergeSort nameLe_trans nameLe_total _
  · show (if (addDiscovered k s p ds).2 || (ensureAll k s (addDiscovered k s p ds).1).2
          then some (ensureAll k s (addDiscovered k s p ds).1).1 else none) = none ↔
      ((addDiscovered k s p ds).2 || (ensureAll k s (addDiscovered k s p ds).1).2) = false
    by_cases hb : ((addDiscovered k s p ds).2
        || (ensureAll k s (addDiscovered k s p ds).1).2) = true
    · rw [if_pos hb, hb]
      constructor
      · intro h; exact absurd h (by simp)
      · intro h; exact absurd h (by simp)
    · rw [if_neg hb]
      have hb' := Bool.eq_false_iff.mpr hb
      rw [hb']
      exact ⟨fun _ => rfl, fun _ => rfl⟩
  · intro l hl
    revert hl
    show (if (addDiscovered k s p ds).2 || (ensureAll k s (addDiscovered k s p ds).1).2
          then some (ensureAll k s (addDiscovered k s p ds).1).1 else none) = some l →
      l.Perm (load_data p ds k s).1
    by_cases hb : ((addDiscovered k s p ds).2
        || (ensureAll k s (addDiscovered k s p ds).1).2) = true
    · rw [if_pos hb]
      intro hl
      have hl' : (ensureAll k s (addDiscovered k s p ds).1).1 = l := Option.some_inj.mp hl
      show l.Perm (List.mergeSort (ensureAll k s (addDiscovered k s p ds).1).1 nameLe)
      rw [hl']
      exact (List.mergeSort_perm l nameLe).symm
    · rw [if_neg hb]
      intro hl
      exact absurd hl (by simp)

/-- Witness for C6: on a concrete load with one persisted entity `"B"` and
one discovered entity `"A"`, the persisted collection `[B, A]` is a
permutation of the returned collection. -/
theorem load_sorted_save_presorted_witness :
    List.Perm [(⟨"B", "pb", []⟩ : Character), ⟨"A", "pa", []⟩]
      (load_data [⟨"B", "pb", []⟩] [("A", "pa")] [] []).1 :=
  (load_sorted_save_presorted [⟨"B", "pb", []⟩] [("A", "pa")] [] []).2.2
    [⟨"B", "pb", []⟩, ⟨"A", "pa", []⟩] rfl

/-- Counterexample to **C6** as stated: `save_data` runs before the sort, so
with persisted `[B]` and discovered `A` the persisted collection is
`[B, A]`, which is not sorted by name. -/
theorem saved_collection_not_sorted :
    savedOnLoad [⟨"B", "pb", []⟩] [("A", "pa")] [] [] =
      some [⟨"B", "pb", []⟩, ⟨"A", "pa", []⟩] ∧
    ¬ List.Pairwise (fun a b => nameLe a b = true)
        [(⟨"B", "pb", []⟩ : Character), ⟨"A", "pa", []⟩] := by
  refine ⟨rfl, fun hp => ?_⟩
  have h1 : nameLe ⟨"B", "pb", []⟩ ⟨"A", "pa", []⟩ = true :=
    (List.pairwise_cons.mp hp).1 ⟨"A", "pa", []⟩ (List.mem_singleton.mpr rfl)
  exact absurd (String.le_iff_toList_le.mp (of_decide_eq_true h1)) (by decide)

/-- **C7** (corrected): reconciliation preserves pairwise-distinct category
names — `ensure_categories` never appends a name already present, for any
configuration list including duplicate-containing ones — so when both
configuration lists are duplicate-free and every persisted entity has
distinct category names, every entity after reconciliation has distinct
category names.  (New entities copy the configuration list verbatim, so a
duplicate-containing list does produce duplicates on them.) -/
theorem reconciled_names_nodup (p : List Character) (ds : List (String × String))
    (k s : List String) (hk : k.Nodup) (hs : s.Nodup)
    (hp : ∀ c ∈ p, (c.streaks.map StreakCategory.name).Nodup) :
    ∀ c ∈ (load_data p ds k s).1, (c.streaks.map StreakCategory.name).Nodup := by
  intro c hc
  have hc2 : c ∈ (ensureAll k s (addDiscovered k s p ds).1).1 := List.mem_mergeSort.mp hc
  obtain ⟨c0, hc0, rfl⟩ := ensureAll_mem k s _ c hc2
  apply ensure_nodup
  rcases addDiscovered_mem k s ds p c0 hc0 with h | ⟨n, p2, rfl⟩
  · exact hp c0 h
  · rw [mkCharacter_map_name]
    unfold catsFor
    by_cases hsv : eqIgnoreAsciiCase n "survivor" = true
    · rw [if_pos hsv]; exact hs
    · rw [if_neg hsv]; exact hk

/-- Witness for C7: with duplicate-free configuration lists and no persisted
entities, the one entity produced by a concrete load has pairwise-distinct
category names. -/
theorem reconciled_names_nodup_witness :
    (((⟨"A", "p", [⟨"4k", 0, 0⟩, ⟨"3k", 0, 0⟩]⟩ : Character)).streaks.map
      StreakCategory.name).Nodup :=
  reconciled_names_nodup [] [("A", "p")] ["4k", "3k"] ["Solo escape"]
    (by decide) (by decide) (by decide)
    ⟨"A", "p", [⟨"4k", 0, 0⟩, ⟨"3k", 0, 0⟩]⟩
    (List.mem_mergeSort.mpr (by decide))

/-- Counterexample to **C7** as stated: with the duplicate-containing
configuration list `["4k", "4k"]` (the category source does not remove
duplicates), the newly created entity receives two categories named
`"4k"`. -/
theorem duplicate_config_duplicates_names :
    ∃ c ∈ (load_data [] [("A", "p")] ["4k", "4k"] []).1,
      ¬ (c.streaks.map StreakCategory.name).Nodup := by
  refine ⟨⟨"A", "p", [⟨"4k", 0, 0⟩, ⟨"4k", 0, 0⟩]⟩, ?_, by decide⟩
  show _ ∈ List.mergeSort (ensureAll ["4k", "4k"] []
    (addDiscovered ["4k", "4k"] [] [] [("A", "p")]).1).1 nameLe
  exact List.mem_mergeSort.mpr (by decide)

/-- **C5** (confirmed): reconciliation is idempotent — running `load_data`
again on its own output with the same discovered set and category lists
reports no change and returns the same collection. -/
theorem load_data_idempotent (p : List Character) (ds : List (String × String))
    (k s : List String) :
    load_data (load_data p ds k s).1 ds k s = ((load_data p ds k s).1, false) := by
  have hmem : ∀ c : Character, c ∈ (load_data p ds k s).1 ↔
      c ∈ (ensureAll k s (addDiscovered k s p ds).1).1 := fun c => List.mem_mergeSort
  have hmap : ((ensureAll k s (addDiscovered k s p ds).1).1).map Character.name =
      ((addDiscovered k s p ds).1).map Character.name := ensureAll_map_name k s _
  have hstep1 : addDiscovered k s (load_data p ds k s).1 ds = ((load_data p ds k s).1, false) := by
    apply addDiscovered_noop
    intro d hd
    have h1 : ((addDiscovered k s p ds).1).any (fun c => c.name == d.1) = true :=
      addDiscovered_complete k s ds p d hd
    have h2 : ((ensureAll k s (addDiscovered k s p ds).1).1).any
        (fun c => c.name == d.1) = true := by
      obtain ⟨x, hx, hxe⟩ := List.any_eq_true.mp h1
      have hxn : x.name ∈ ((addDiscovered k s p ds).1).map Character.name :=
        List.mem_map.mpr ⟨x, hx, rfl⟩
      rw [← hmap] at hxn
      obtain ⟨y, hy, hye⟩ := List.mem_map.mp hxn
      exact List.any_eq_true.mpr ⟨y, hy, beq_iff_eq.mpr (hye.trans (beq_iff_eq.mp hxe))⟩
    rw [any_congr_mem hmem]
    exact h2
  have hstep2 : ensureAll k s (load_data p ds k s).1 = ((load_data p ds k s).1, false) := by
    apply ensureAll_noop
    intro c hc n hn
    obtain ⟨c0, _, rfl⟩ := ensureAll_mem k s _ c ((hmem c).mp hc)
    have hname : ((ensure_categories c0 (catsFor k s c0.name)).1).name = c0.name :=
      ensure_name _ c0
    rw [hname] at hn
    exact ensure_complete (catsFor k s c0.name) c0 n hn
  have hsorted : List.Pairwise (fun a b => nameLe a b = true) (load_data p ds k s).1 := by
    show List.Pairwise _ (List.mergeSort (ensureAll k s (addDiscovered k s p ds).1).1 nameLe)
    exact List.sorted_mergeSort nameLe_trans nameLe_total _
  show (sortByName (ensureAll k s (addDiscovered k s (load_data p ds k s).1 ds).1).1,
    (addDiscovered k s (load_data p ds k s).1 ds).2
      || (ensureAll k s (addDiscovered k s (load_data p ds k s).1 ds).1).2) = _
  rw [hstep1]
  show (sortByName (ensureAll k s (load_data p ds k s).1).1,
    false || (ensureAll k s (load_data p ds k s).1).2) = _
  rw [hstep2]
  show (List.mergeSort (load_data p ds k s).1 nameLe, false || false) = _
  rw [List.mergeSort_of_sorted hsorted]
  rfl

end Streaks
